import Mathlib

/-!
Verification of the `genomic_range` crate (`src/lib.rs`).

The embedding models text as `List Char` and machine integers (`u64`) as
`Nat`, with wrapping arithmetic made explicit via `% 2 ^ 64` where the Rust
code can overflow or underflow (release semantics; debug builds would panic
at the same inputs).  Fallible constructors (`Result<_, Box<dyn Error>>` in
the source) are modelled as `Option`, `Err` becoming `none`.

The Rust code matches the two regular expressions
  optional bounds : ^(.+):(\d*)-?(\d*)$
  mandatory start : ^(.+):(\d+)-?(\d*)$
with the `regex` crate's leftmost-first (greedy) semantics: `(.+)` takes the
longest prefix (newline excluded by `.`) that is followed by a colon whose
suffix matches the digit/dash tail.  `capAux` below implements exactly that:
it prefers the rightmost colon whose suffix matches, which is the greedy
choice.  `\d` and Rust's `split_whitespace` are modelled at the ASCII level
(`Char.isDigit` / `Char.isWhitespace`); the claims under study only involve
ASCII text.
-/

/-- Wrap a natural number into the `u64` range, modelling Rust's
two's-complement truncation. -/
def wrap64 (n : Nat) : Nat := n % 2 ^ 64

/-- Wrapping `u64` addition (`a + b` in release Rust). -/
def wadd64 (a b : Nat) : Nat := wrap64 (a + b)

/-- Wrapping `u64` subtraction (`a - b` in release Rust): adds `2 ^ 64`
before subtracting so the `Nat` truncation never hits. -/
def wsub64 (a b : Nat) : Nat := wrap64 (a + 2 ^ 64 - wrap64 b)

/-- Decimal value of a digit string, most significant digit first.  This is
only meaningful on strings of ASCII digits (`'+'` maps to `43 - 48 = 0`
under `Nat` truncation, but callers strip it first). -/
def digitsToNat (s : List Char) : Nat :=
  s.foldl (fun a c => a * 10 + (c.toNat - 48)) 0

/-- The decimal digit `d` (`d < 10`) as a character. -/
def digitChar (d : Nat) : Char := Char.ofNat (48 + d)

/-- Canonical decimal rendering, fuelled to keep the recursion structural;
`natDigits` instantiates the fuel. -/
def natDigitsCore (fuel n : Nat) : List Char :=
  match fuel with
  | 0 => []
  | fuel + 1 =>
    if n < 10 then [digitChar n]
    else natDigitsCore fuel (n / 10) ++ [digitChar (n % 10)]

/-- Canonical decimal rendering of a natural number, modelling `u64`'s
`Display` implementation (no leading zeros, `0` renders as `"0"`). -/
def natDigits (n : Nat) : List Char := natDigitsCore (n + 1) n

/-- Rust's `str::parse::<u64>` may begin with an optional `'+'` sign. -/
def stripPlus (s : List Char) : List Char :=
  if s.head? = some '+' then s.drop 1 else s

/-- Model of `str::parse::<u64>()`: an optional `'+'`, then one or more
ASCII digits whose value fits in 64 bits; anything else is an error. -/
def parseU64 (s : List Char) : Option Nat :=
  let t := stripPlus s
  if t = [] then none
  else if t.all Char.isDigit = true then
    if digitsToNat t < 2 ^ 64 then some (digitsToNat t) else none
  else none

/-- Match of the tail `(\d*)-?(\d*)$` (with `(\d+)` for the first group when
`mand = true`) against a suffix, returning the two captured digit groups.
Greedy capture: the first group is the longest digit prefix; after it the
rest must be empty or a dash followed by digits only. -/
def tailMatch (mand : Bool) (s : List Char) : Option (List Char × List Char) :=
  let d1 := s.takeWhile Char.isDigit
  let rest := s.dropWhile Char.isDigit
  if mand = true ∧ d1 = [] then none
  else if rest = [] then some (d1, [])
  else if rest.head? = some '-' ∧ (rest.drop 1).all Char.isDigit = true then
    some (d1, rest.drop 1)
  else none

/-- Core of the regex match `(.+):tail`: returns the split at the rightmost
colon whose suffix matches the tail pattern (the greedy choice of `(.+)`),
with the path capture, which may be empty here, and the two digit groups.
A newline cannot occur in the path part because `.` does not match it. -/
def capAux (mand : Bool) : List Char → Option (List Char × List Char × List Char)
  | [] => none
  | c :: rest =>
    (capAux mand rest).elim
      (if c = ':' then
        (tailMatch mand rest).map (fun pr => (([] : List Char), pr.1, pr.2))
      else none)
      (fun pr => if c = '\n' then none else some (c :: pr.1, pr.2.1, pr.2.2))

/-- Full match of `^(.+):(\d*)-?(\d*)$` (or the `(\d+)` variant): the path
capture must be nonempty. -/
def capture (mand : Bool) (s : List Char) : Option (List Char × List Char × List Char) :=
  (capAux mand s).elim none (fun pr => if pr.1 = [] then none else some pr)

/-- `p` starts with `pre` (Rust `str::starts_with`). -/
def startsWith (p pre : List Char) : Bool := decide (p.take pre.length = pre)

/-- Chromosome-name normalization, duplicated verbatim in
`OptionalRegion::new_with_prefix` and `StringRegion::new_with_prefix`:
an empty configured name strips a literal `"chr"`; otherwise the configured
text is stripped when present and re-prepended when the remainder is
shorter than it. -/
def chrNorm (p pre : List Char) : List Char :=
  if pre = [] then
    if startsWith p ("chr".data) = true then p.drop 3 else p
  else
    let p1 := if startsWith p pre = true then p.drop pre.length else p
    if p1.length < pre.length then pre ++ p1 else p1

/-- Rust `str::split_whitespace` (ASCII whitespace model): accumulates the
current token in reverse in `acc`, emitting it at each whitespace run. -/
def splitWsAux : List Char → List Char → List (List Char)
  | [], acc => if acc = [] then [] else [acc.reverse]
  | c :: rest, acc =>
    if c.isWhitespace = true then
      if acc = [] then splitWsAux rest []
      else acc.reverse :: splitWsAux rest []
    else splitWsAux rest (c :: acc)

def splitWs (s : List Char) : List (List Char) := splitWsAux s []

/-- `OptionalRegion`: a path with two optional `u64` bounds. -/
structure OptionalRegion where
  path : List Char
  start : Option Nat
  end_ : Option Nat
deriving DecidableEq

/-- `OptionalRegion::new`: optional-bounds grammar; digit groups that fail
`u64` parsing degrade to `None`. -/
def OptionalRegion.new (s : List Char) : Option OptionalRegion :=
  (capture false s).elim none
    (fun pr => some ⟨pr.1, parseU64 pr.2.1, parseU64 pr.2.2⟩)

/-- `OptionalRegion::new_with_prefix`: as `new`, with the captured path
normalized by `chrNorm` before being stored. -/
def OptionalRegion.newWithPre (s pre : List Char) : Option OptionalRegion :=
  (capture false s).elim none
    (fun pr => some ⟨chrNorm pr.1 pre, parseU64 pr.2.1, parseU64 pr.2.2⟩)

/-- `OptionalRegion::interval`. -/
def OptionalRegion.interval (r : OptionalRegion) : Option Nat :=
  match r.start, r.end_ with
  | some s, some e => if s < e then some (e - s) else some (s - e)
  | _, _ => none

/-- `OptionalRegion`'s `Display` / `uuid`: path alone without a start,
`path:start` without an end, `path:start-end` with both. -/
def OptionalRegion.uuid (r : OptionalRegion) : List Char :=
  match r.start with
  | some s =>
    match r.end_ with
    | some e => r.path ++ ':' :: (natDigits s ++ '-' :: natDigits e)
    | none => r.path ++ ':' :: natDigits s
  | none => r.path

/-- `StringRegion`: path plus mandatory bounds, normalized so that
`start ≤ end` with the original orientation in `inverted`. -/
structure StringRegion where
  path : List Char
  start : Nat
  end_ : Nat
  inverted : Bool
deriving DecidableEq

/-- `StringRegion::new_inner`: swap-and-flag normalizing constructor. -/
def StringRegion.newInner (p : List Char) (a b : Nat) : StringRegion :=
  if a > b then ⟨p, b, a, true⟩ else ⟨p, a, b, false⟩

/-- `StringRegion::left`: the bound given first in the original text. -/
def StringRegion.left (r : StringRegion) : Nat :=
  if r.inverted then r.end_ else r.start

/-- `StringRegion::right`: the bound given second in the original text. -/
def StringRegion.right (r : StringRegion) : Nat :=
  if r.inverted then r.start else r.end_

/-- `StringRegion::interval`: `end - start` on `u64` (wraps if the
invariant has been broken by a mutator). -/
def StringRegion.interval (r : StringRegion) : Nat := wsub64 r.end_ r.start

/-- `StringRegion::extend`: `start -= len` (wrapping on `u64`), then a
`start <= 0` check that on an unsigned value only ever sees `0`, then
`end += len`. -/
def StringRegion.extend (r : StringRegion) (len : Nat) : StringRegion :=
  let s1 := wsub64 r.start len
  let s2 := if s1 ≤ 0 then 0 else s1
  ⟨r.path, s2, wadd64 r.end_ len, r.inverted⟩

/-- `StringRegion::start_minus`: `start -= 1`, no underflow guard. -/
def StringRegion.startMinus (r : StringRegion) : StringRegion :=
  ⟨r.path, wsub64 r.start 1, r.end_, r.inverted⟩

/-- `StringRegion::new_regexp`: mandatory-start colon/dash grammar; both
digit groups must parse as `u64` (an empty second group fails the parse). -/
def StringRegion.newRegexp (s : List Char) : Option StringRegion :=
  (capture true s).elim none (fun pr =>
    (parseU64 pr.2.1).elim none (fun a =>
      (parseU64 pr.2.2).elim none (fun b =>
        some (StringRegion.newInner pr.1 a b))))

/-- `StringRegion::new`: whitespace-tokenized grammar when splitting yields
at least 3 tokens, otherwise fall back to `new_regexp`. -/
def StringRegion.new (s : List Char) : Option StringRegion :=
  match splitWs s with
  | t0 :: t1 :: t2 :: _ =>
    (parseU64 t1).elim none (fun a =>
      (parseU64 t2).elim none (fun b =>
        some (StringRegion.newInner t0 a b)))
  | _ => StringRegion.newRegexp s

/-- `StringRegion::new_with_prefix`.  NOTE: faithful to the source, which
computes the normalized `path_string` into a local variable but then passes
the whole original input `path` to `new_inner`, so the stored path is the
entire input text and the normalization result is discarded. -/
def StringRegion.newWithPre (s pre : List Char) : Option StringRegion :=
  (capture true s).elim none (fun pr =>
    let _pathString := chrNorm pr.1 pre
    (parseU64 pr.2.1).elim none (fun a =>
      (parseU64 pr.2.2).elim none (fun b =>
        some (StringRegion.newInner s a b))))

/-- `StringRegion`'s `Display` / `uuid`: original orientation, i.e.
`path:end-start` when inverted and `path:start-end` otherwise. -/
def StringRegion.uuid (r : StringRegion) : List Char :=
  if r.inverted then r.path ++ ':' :: (natDigits r.end_ ++ '-' :: natDigits r.start)
  else r.path ++ ':' :: (natDigits r.start ++ '-' :: natDigits r.end_)

/-- `Region`: numeric reference id plus half-open interval. -/
structure Region where
  refId : Nat
  start : Nat
  end_ : Nat
deriving DecidableEq

/-- `Region::new`: the `assert!(start <= end)` is modelled as `none`
(a panic, not a recoverable error, in the source). -/
def Region.new (refId start end_ : Nat) : Option Region :=
  if start ≤ end_ then some ⟨refId, start, end_⟩ else none

/-- `Region::convert`: resolve the path through the caller-supplied
function and copy `start`/`end` verbatim; no ordering check. -/
def Region.convert (sr : StringRegion) (toId : List Char → Option Nat) : Option Region :=
  (toId sr.path).elim none (fun i => some ⟨i, sr.start, sr.end_⟩)

/-- `Region::parse`: optional-bounds grammar, both digit groups required to
parse as `u64`, path resolved through `toId`.  The `Region` struct literal
is built directly, without the `start ≤ end` assertion of `Region::new`. -/
def Region.parse (s : List Char) (toId : List Char → Option Nat) : Option Region :=
  (capture false s).elim none (fun pr =>
    (parseU64 pr.2.1).elim none (fun a =>
      (parseU64 pr.2.2).elim none (fun b =>
        (toId pr.1).elim none (fun i => some ⟨i, a, b⟩))))

/-- `Region::contains`: half-open membership test. -/
def Region.contains (r : Region) (refId pos : Nat) : Bool :=
  decide (r.refId = refId) && decide (r.start ≤ pos) && decide (pos < r.end_)

/-- `Region::include`: strict containment at the upper end. -/
def Region.include_ (r other : Region) : Bool :=
  decide (r.refId = other.refId) && decide (r.start ≤ other.start) &&
    decide (other.end_ < r.end_)

/-- `Region::len`. -/
def Region.len (r : Region) : Nat := wsub64 r.end_ r.start

/-! ### Helper lemmas about the parsing model -/

theorem capAux_nil (m : Bool) : capAux m [] = none := rfl

theorem capAux_cons (m : Bool) (c : Char) (rest : List Char) :
    capAux m (c :: rest) =
      (capAux m rest).elim
        (if c = ':' then
          (tailMatch m rest).map (fun pr => (([] : List Char), pr.1, pr.2))
        else none)
        (fun pr => if c = '\n' then none else some (c :: pr.1, pr.2.1, pr.2.2)) := rfl

theorem capAux_no_colon (m : Bool) (t : List Char) (h : ':' ∉ t) :
    capAux m t = none := by
  induction t with
  | nil => rfl
  | cons c rest ih =>
    have h1 : ':' ∉ rest := fun hm => h (List.mem_cons_of_mem _ hm)
    have h2 : ¬(c = ':') := fun hc => h (by rw [hc]; exact List.mem_cons_self _ _)
    rw [capAux_cons, ih h1]
    simp [h2]

theorem takeWhile_digits (da db : List Char) (h : da.all Char.isDigit = true) :
    (da ++ '-' :: db).takeWhile Char.isDigit = da ∧
      (da ++ '-' :: db).dropWhile Char.isDigit = '-' :: db := by
  induction da with
  | nil =>
    constructor
    · simp [List.takeWhile_cons]
    · simp [List.dropWhile_cons]
  | cons c da ih =>
    rw [List.all_cons, Bool.and_eq_true] at h
    obtain ⟨hc, hda⟩ := h
    obtain ⟨h1, h2⟩ := ih hda
    constructor
    · simp [List.takeWhile_cons, hc, h1]
    · simp [List.dropWhile_cons, hc, h2]

theorem tailMatch_eq (m : Bool) (da db : List Char) (hda : da.all Char.isDigit = true)
    (hdb : db.all Char.isDigit = true) (hm : m = true → da ≠ []) :
    tailMatch m (da ++ '-' :: db) = some (da, db) := by
  obtain ⟨h1, h2⟩ := takeWhile_digits da db hda
  have h3 : ¬(m = true ∧ da = []) := fun hc => hm hc.1 hc.2
  simp only [tailMatch, h1, h2, if_neg h3]
  simp [hdb]

theorem capAux_split (m : Bool) (p t d1 d2 : List Char) (hn : '\n' ∉ p)
    (ht : capAux m t = none) (htm : tailMatch m t = some (d1, d2)) :
    capAux m (p ++ ':' :: t) = some (p, d1, d2) := by
  induction p with
  | nil =>
    rw [List.nil_append, capAux_cons, ht]
    simp [htm]
  | cons c p ih =>
    have hc : ¬(c = '\n') := fun h => hn (by rw [h]; exact List.mem_cons_self _ _)
    have h1 : '\n' ∉ p := fun h => hn (List.mem_cons_of_mem _ h)
    rw [List.cons_append, capAux_cons, ih h1]
    simp [hc]

theorem capture_split (m : Bool) (p t d1 d2 : List Char) (hp : p ≠ []) (hn : '\n' ∉ p)
    (hcolon : ':' ∉ t) (htm : tailMatch m t = some (d1, d2)) :
    capture m (p ++ ':' :: t) = some (p, d1, d2) := by
  unfold capture
  rw [capAux_split m p t d1 d2 hn (capAux_no_colon m t hcolon) htm]
  simp [hp]

theorem isDigit_ne (c : Char) (h : c.isDigit = true) :
    c ≠ ':' ∧ c ≠ '-' ∧ c ≠ '+' := by
  refine ⟨?_, ?_, ?_⟩ <;> intro he <;> rw [he] at h <;> exact absurd h (by decide)

theorem all_takeWhile_digit (l : List Char) :
    (l.takeWhile Char.isDigit).all Char.isDigit = true := by
  induction l with
  | nil => rfl
  | cons c l ih =>
    rw [List.takeWhile_cons]
    split
    · rw [List.all_cons, Bool.and_eq_true]; exact ⟨by assumption, ih⟩
    · rfl

theorem tailMatch_digits_out (m : Bool) (t d1 d2 : List Char)
    (h : tailMatch m t = some (d1, d2)) :
    d1.all Char.isDigit = true ∧ d2.all Char.isDigit = true := by
  simp only [tailMatch] at h
  split at h
  · exact absurd h (by simp)
  · split at h
    · rw [Option.some_inj] at h
      simp only [Prod.mk.injEq] at h
      obtain ⟨h1, h2⟩ := h
      subst h1; subst h2
      exact ⟨all_takeWhile_digit t, rfl⟩
    · split at h
      · rename_i hcond
        rw [Option.some_inj] at h
        simp only [Prod.mk.injEq] at h
        obtain ⟨h1, h2⟩ := h
        subst h1; subst h2
        exact ⟨all_takeWhile_digit t, hcond.2⟩
      · exact absurd h (by simp)

theorem capAux_digits (m : Bool) (s : List Char) :
    ∀ p d1 d2, capAux m s = some (p, d1, d2) →
      d1.all Char.isDigit = true ∧ d2.all Char.isDigit = true := by
  induction s with
  | nil => intro p d1 d2 h; rw [capAux_nil] at h; exact absurd h (by simp)
  | cons c rest ih =>
    intro p d1 d2 h
    rw [capAux_cons] at h
    cases hr : capAux m rest with
    | some pr =>
      obtain ⟨p', d1', d2'⟩ := pr
      rw [hr] at h
      simp only [Option.elim_some] at h
      split at h
      · exact absurd h (by simp)
      · rw [Option.some_inj] at h
        simp only [Prod.mk.injEq] at h
        obtain ⟨h1, h2, h3⟩ := h
        subst h2; subst h3
        exact ih p' d1' d2' hr
    | none =>
      rw [hr] at h
      simp only [Option.elim_none] at h
      split at h
      · cases htm : tailMatch m rest with
        | none => rw [htm] at h; exact absurd h (by simp)
        | some pr =>
          obtain ⟨e1, e2⟩ := pr
          rw [htm] at h
          simp only [Option.map_some'] at h
          rw [Option.some_inj] at h
          simp only [Prod.mk.injEq] at h
          obtain ⟨h1, h2, h3⟩ := h
          subst h2; subst h3
          exact tailMatch_digits_out m rest e1 e2 htm
      · exact absurd h (by simp)

theorem capture_digits (m : Bool) (s p d1 d2 : List Char)
    (h : capture m s = some (p, d1, d2)) :
    d1.all Char.isDigit = true ∧ d2.all Char.isDigit = true := by
  unfold capture at h
  cases hr : capAux m s with
  | none => rw [hr] at h; exact absurd h (by simp)
  | some pr =>
    obtain ⟨p', d1', d2'⟩ := pr
    rw [hr] at h
    simp only [Option.elim_some] at h
    split at h
    · exact absurd h (by simp)
    · rw [Option.some_inj] at h
      simp only [Prod.mk.injEq] at h
      obtain ⟨h1, h2, h3⟩ := h
      subst h2; subst h3
      exact capAux_digits m s p' d1' d2' hr

theorem digitsToNat_append_one (xs : List Char) (c : Char) :
    digitsToNat (xs ++ [c]) = digitsToNat xs * 10 + (c.toNat - 48) := by
  unfold digitsToNat
  rw [List.foldl_append]
  rfl

theorem digitChar_toNat (d : Nat) (h : d < 10) : (digitChar d).toNat = 48 + d := by
  interval_cases d <;> rfl

theorem digitChar_isDigit (d : Nat) (h : d < 10) : (digitChar d).isDigit = true := by
  interval_cases d <;> rfl

theorem natDigitsCore_spec (fuel : Nat) : ∀ n, n < fuel →
    digitsToNat (natDigitsCore fuel n) = n ∧
      (natDigitsCore fuel n).all Char.isDigit = true ∧ natDigitsCore fuel n ≠ [] := by
  induction fuel with
  | zero => intro n h; exact absurd h (Nat.not_lt_zero n)
  | succ fuel ih =>
    intro n h
    by_cases h10 : n < 10
    · refine ⟨?_, ?_, ?_⟩ <;> simp only [natDigitsCore, if_pos h10]
      · rw [show ([digitChar n] : List Char) = [] ++ [digitChar n] from rfl,
          digitsToNat_append_one, digitChar_toNat n h10]
        simp [digitsToNat]
      · simp [digitChar_isDigit n h10]
      · simp
    · have hn0 : 0 < n := by omega
      have hlt : n / 10 < fuel := by
        have := Nat.div_lt_self hn0 (by norm_num : 1 < 10)
        omega
      obtain ⟨ih1, ih2, ih3⟩ := ih (n / 10) hlt
      refine ⟨?_, ?_, ?_⟩ <;> simp only [natDigitsCore, if_neg h10]
      · rw [digitsToNat_append_one, ih1, digitChar_toNat (n % 10) (Nat.mod_lt n (by norm_num))]
        have := Nat.div_add_mod n 10
        omega
      · rw [List.all_append, ih2]
        simp [digitChar_isDigit (n % 10) (Nat.mod_lt n (by norm_num))]
      · simp

theorem natDigits_spec (n : Nat) :
    digitsToNat (natDigits n) = n ∧
      (natDigits n).all Char.isDigit = true ∧ natDigits n ≠ [] :=
  natDigitsCore_spec (n + 1) n (Nat.lt_succ_self n)

theorem stripPlus_digits (s : List Char) (h : s.all Char.isDigit = true) :
    stripPlus s = s := by
  unfold stripPlus
  cases s with
  | nil => simp
  | cons c l =>
    rw [List.all_cons, Bool.and_eq_true] at h
    have hc := (isDigit_ne c h.1).2.2
    simp [hc]

theorem parseU64_natDigits (n : Nat) (h : n < 2 ^ 64) :
    parseU64 (natDigits n) = some n := by
  obtain ⟨h1, h2, h3⟩ := natDigits_spec n
  simp only [parseU64, stripPlus_digits _ h2, if_neg h3, h2, if_pos trivial, h1, if_pos h]

theorem parseU64_digits_none (d : List Char) (hd : d.all Char.isDigit = true)
    (h : d = [] ∨ 2 ^ 64 ≤ digitsToNat d) : parseU64 d = none := by
  cases h with
  | inl he => rw [he]; rfl
  | inr hb =>
    by_cases he : d = []
    · rw [he]; rfl
    · simp only [parseU64, stripPlus_digits _ hd, if_neg he, hd, if_pos trivial,
        if_neg (by omega : ¬digitsToNat d < 2 ^ 64)]

theorem new_regexp_eq (s : List Char) (h : (splitWs s).length < 3) :
    StringRegion.new s = StringRegion.newRegexp s := by
  unfold StringRegion.new
  rcases hs : splitWs s with _ | ⟨t0, _ | ⟨t1, _ | ⟨t2, rest⟩⟩⟩
  · rfl
  · rfl
  · rfl
  · rw [hs] at h; simp at h; omega

theorem new_tokens_eq (s t0 t1 t2 : List Char) (rest : List (List Char))
    (h : splitWs s = t0 :: t1 :: t2 :: rest) :
    StringRegion.new s =
      (parseU64 t1).elim none (fun a =>
        (parseU64 t2).elim none (fun b =>
          some (StringRegion.newInner t0 a b))) := by
  unfold StringRegion.new
  rw [h]

theorem wsub64_no_wrap (a b : Nat) (hb : b ≤ a) (ha : a < 2 ^ 64) :
    wsub64 a b = a - b := by
  unfold wsub64 wrap64
  rw [Nat.mod_eq_of_lt (by omega : b < 2 ^ 64),
    show a + 2 ^ 64 - b = (a - b) + 2 ^ 64 by omega,
    Nat.add_mod_right, Nat.mod_eq_of_lt (by omega)]

theorem wadd64_no_wrap (a b : Nat) (h : a + b < 2 ^ 64) : wadd64 a b = a + b := by
  unfold wadd64 wrap64
  exact Nat.mod_eq_of_lt h

theorem chrNorm_eq (p pre : List Char) (hpre : pre ≠ []) :
    chrNorm p pre =
      (if (if startsWith p pre = true then p.drop pre.length else p).length < pre.length
       then pre ++ (if startsWith p pre = true then p.drop pre.length else p)
       else (if startsWith p pre = true then p.drop pre.length else p)) := by
  unfold chrNorm
  rw [if_neg hpre]

/-! ### The claims -/

/-- Claim C1: the claim says every `Region` construction path (`new`,
`convert`, `parse`) enforces `start ≤ end` fatally.  The code violates it:
`Region::parse` builds the struct literal directly with no assertion, so
parsing `"x:5-3"` with a resolver for `"x"` returns `Region{0, 5, 3}` with
`start > end`, while `Region::new 0 5 3` would have asserted (here: `none`). -/
theorem c1_parse_unchecked :
    Region.parse ("x:5-3".data) (fun p => if p = "x".data then some 0 else none) =
        some ⟨0, 5, 3⟩ ∧
      ¬((5 : Nat) ≤ 3) ∧ Region.new 0 5 3 = none :=
  ⟨by decide, by decide, by decide⟩

/-- Claim C2 (counterexample): `StringRegion::new_with_prefix("chr1:1-2", "chr")`
stores the whole input text `"chr1:1-2"` as the path, not `"1"` as claimed. -/
theorem c2_counterexample :
    StringRegion.newWithPre ("chr1:1-2".data) ("chr".data) =
        some ⟨"chr1:1-2".data, 1, 2, false⟩ ∧
      ("chr1:1-2".data : List Char) ≠ "1".data :=
  ⟨by decide, by decide⟩

/-- Claim C2 (amended): `StringRegion::new_with_prefix` parses with the
mandatory colon/dash grammar but stores the entire original input text as
the path — the normalized path is computed into an unused local and
discarded; moreover the §4.1 rule itself sends `"chr1"`/`"chr"` to
`"chr1"` (stripped remainder `"1"` is shorter than the strip text, so it is
re-prepended), not to `"1"`. -/
theorem c2_amended :
    (∀ s pre p d1 d2 : List Char, ∀ a b : Nat,
        capture true s = some (p, d1, d2) →
        parseU64 d1 = some a → parseU64 d2 = some b →
        StringRegion.newWithPre s pre = some (StringRegion.newInner s a b)) ∧
      chrNorm ("chr1".data) ("chr".data) = "chr1".data ∧
      StringRegion.newWithPre ("chr1:1-2".data) ("chr".data) =
        some ⟨"chr1:1-2".data, 1, 2, false⟩ := by
  refine ⟨?_, by decide, by decide⟩
  intro s pre p d1 d2 a b hcap ha hb
  unfold StringRegion.newWithPre
  rw [hcap]
  show (parseU64 d1).elim none (fun a' =>
      (parseU64 d2).elim none (fun b' =>
        some (StringRegion.newInner s a' b'))) = some (StringRegion.newInner s a b)
  simp only [ha, hb, Option.elim_some]

theorem c2_witness :
    StringRegion.newWithPre ("q:7-9".data) ("zz".data) =
      some (StringRegion.newInner ("q:7-9".data) 7 9) :=
  c2_amended.1 ("q:7-9".data) ("zz".data) ("q".data) ("7".data) ("9".data) 7 9
    (by decide) (by decide) (by decide)

/-- Claim C3: the claim says `extend` clamps `start` at zero without
wrapping or erroring.  The code subtracts first and its `start <= 0` check
can never fire on `u64` after a wraparound, so `start = 1, len = 2` wraps
to `2 ^ 64 - 1` (release semantics; debug builds panic) instead of `0`. -/
theorem c3_extend_wraps :
    StringRegion.extend ⟨"x".data, 1, 5, false⟩ 2 =
        ⟨"x".data, 2 ^ 64 - 1, 7, false⟩ ∧
      (2 ^ 64 - 1 : Nat) ≠ 0 :=
  ⟨by decide, by decide⟩

/-- Claim C4 (counterexample): normalizing path `"X"` with configured text
`"chrX"` yields `"chrXX"`, not `"chrX"` as the claim states: `"X"` does not
start with `"chrX"`, so nothing is stripped, and the too-short rule then
prepends `"chrX"` to the untouched `"X"`. -/
theorem c4_counterexample :
    OptionalRegion.newWithPre ("X:1-2".data) ("chrX".data) =
        some ⟨"chrXX".data, some 1, some 2⟩ ∧
      ("chrXX".data : List Char) ≠ "chrX".data :=
  ⟨by decide, by decide⟩

/-- Claim C4 (amended): when the remainder after attempted stripping is
shorter than the non-empty configured text, that text is prepended to the
remainder; this restores the original path exactly when the path actually
started with it (so stripping occurred) — `"chrX:1-2"` keeps path
`"chrX"` — while a path that never carried it gets it added:
`"X:1-2"` becomes `"chrXX"`. -/
theorem c4_amended :
    (∀ p pre : List Char, pre ≠ [] → startsWith p pre = true →
        (p.drop pre.length).length < pre.length → chrNorm p pre = p) ∧
      OptionalRegion.newWithPre ("chrX:1-2".data) ("chrX".data) =
        some ⟨"chrX".data, some 1, some 2⟩ ∧
      OptionalRegion.newWithPre ("X:1-2".data) ("chrX".data) =
        some ⟨"chrXX".data, some 1, some 2⟩ := by
  refine ⟨?_, by decide, by decide⟩
  intro p pre hpre hsw hshort
  have hp : p.take pre.length = pre := of_decide_eq_true hsw
  rw [chrNorm_eq p pre hpre, if_pos hsw, if_pos hshort]
  conv_rhs => rw [← List.take_append_drop pre.length p]
  rw [hp]

theorem c4_witness : chrNorm ("chrX".data) ("chrX".data) = "chrX".data :=
  c4_amended.1 ("chrX".data) ("chrX".data) (by decide) (by decide) (by decide)

/-- Claim C5 (counterexample): `start_minus` on the reachable value
`new_inner("x", 0, 0)` wraps `start` to `2 ^ 64 - 1 > 0 = end`, so the
`start ≤ end` invariant is not preserved by the mutators as claimed. -/
theorem c5_counterexample :
    StringRegion.startMinus (StringRegion.newInner ("x".data) 0 0) =
        ⟨"x".data, 2 ^ 64 - 1, 0, false⟩ ∧
      ¬((StringRegion.startMinus (StringRegion.newInner ("x".data) 0 0)).start ≤
          (StringRegion.startMinus (StringRegion.newInner ("x".data) 0 0)).end_) :=
  ⟨by decide, by decide⟩

/-- Claim C5 (amended): `start ≤ end` holds immediately after `new_inner`;
`extend len` preserves it provided `len ≤ start` and `end + len < 2 ^ 64`
(otherwise the unsigned arithmetic wraps); `start_minus` preserves it
provided `start ≥ 1`; and under the invariant `interval() = end - start`
is well-defined. -/
theorem c5_amended :
    (∀ (p : List Char) (a b : Nat),
        (StringRegion.newInner p a b).start ≤ (StringRegion.newInner p a b).end_) ∧
      (∀ (r : StringRegion) (len : Nat), r.start ≤ r.end_ → len ≤ r.start →
          r.end_ + len < 2 ^ 64 →
          (r.extend len).start ≤ (r.extend len).end_ ∧
            (r.extend len).start = r.start - len ∧
            (r.extend len).end_ = r.end_ + len) ∧
      (∀ r : StringRegion, r.start ≤ r.end_ → r.end_ < 2 ^ 64 → 1 ≤ r.start →
          r.startMinus.start ≤ r.startMinus.end_ ∧
            r.startMinus.start = r.start - 1) ∧
      (∀ r : StringRegion, r.start ≤ r.end_ → r.end_ < 2 ^ 64 →
          StringRegion.interval r = r.end_ - r.start) := by
  refine ⟨?_, ?_, ?_, ?_⟩
  · intro p a b
    unfold StringRegion.newInner
    split <;> simp <;> omega
  · intro r len h1 h2 h3
    have hs : r.start < 2 ^ 64 := by omega
    have hsub : wsub64 r.start len = r.start - len := wsub64_no_wrap _ _ h2 hs
    have hadd : wadd64 r.end_ len = r.end_ + len := wadd64_no_wrap _ _ h3
    refine ⟨?_, ?_, ?_⟩ <;>
      simp only [StringRegion.extend, hsub, hadd] <;> split <;> omega
  · intro r h1 h2 h3
    have hsub : wsub64 r.start 1 = r.start - 1 := wsub64_no_wrap _ _ h3 (by omega)
    simp only [StringRegion.startMinus, hsub, and_true]
    omega
  · intro r h1 h2
    simp only [StringRegion.interval]
    exact wsub64_no_wrap _ _ h1 h2

theorem c5_witness :
    (StringRegion.extend ⟨"x".data, 3, 5, false⟩ 2).start ≤
      (StringRegion.extend ⟨"x".data, 3, 5, false⟩ 2).end_ :=
  (c5_amended.2.1 ⟨"x".data, 3, 5, false⟩ 2 (by decide) (by decide) (by decide)).1

/-- Claim C6 (counterexample): the input `"x:05-3"` is well-formed for the
mandatory grammar with `5 > 3`, and `StringRegion::new` does return the
inverted region, but `uuid()` renders the canonical `"x:5-3"`, not the
original text — the claimed exact round trip fails on non-canonical digit
strings. -/
theorem c6_counterexample :
    StringRegion.new ("x:05-3".data) = some ⟨"x".data, 3, 5, true⟩ ∧
      StringRegion.uuid ⟨"x".data, 3, 5, true⟩ = "x:5-3".data ∧
      ("x:5-3".data : List Char) ≠ "x:05-3".data :=
  ⟨by decide, by decide, by decide⟩

/-- Claim C6 (amended): for every text `path:A-B` in which the path is
nonempty and newline-free, the whole text splits into fewer than 3
whitespace tokens, and `A`, `B` are the canonical decimal renderings of
`u64` values `a > b`: `new` yields `start = b`, `end = a`,
`inverted = true`, `left() = a`, `right() = b`, and `uuid()` reproduces
the exact input text. -/
theorem c6_amended (p : List Char) (a b : Nat) (hp : p ≠ []) (hn : '\n' ∉ p)
    (hba : b < a) (ha : a < 2 ^ 64) (hb : b < 2 ^ 64)
    (hw : (splitWs (p ++ ':' :: (natDigits a ++ '-' :: natDigits b))).length < 3) :
    StringRegion.new (p ++ ':' :: (natDigits a ++ '-' :: natDigits b)) =
        some ⟨p, b, a, true⟩ ∧
      StringRegion.left ⟨p, b, a, true⟩ = a ∧
      StringRegion.right ⟨p, b, a, true⟩ = b ∧
      StringRegion.uuid ⟨p, b, a, true⟩ =
        p ++ ':' :: (natDigits a ++ '-' :: natDigits b) := by
  obtain ⟨-, hda, hne⟩ := natDigits_spec a
  obtain ⟨-, hdb, -⟩ := natDigits_spec b
  have hcolon : ':' ∉ natDigits a ++ '-' :: natDigits b := by
    intro hm
    rw [List.mem_append, List.mem_cons] at hm
    rcases hm with h | h | h
    · rw [List.all_eq_true] at hda
      exact (isDigit_ne ':' (hda _ h)).1 rfl
    · exact absurd h (by decide)
    · rw [List.all_eq_true] at hdb
      exact (isDigit_ne ':' (hdb _ h)).1 rfl
  have htm : tailMatch true (natDigits a ++ '-' :: natDigits b) =
      some (natDigits a, natDigits b) :=
    tailMatch_eq true _ _ hda hdb (fun _ => hne)
  have hcap : capture true (p ++ ':' :: (natDigits a ++ '-' :: natDigits b)) =
      some (p, natDigits a, natDigits b) :=
    capture_split true p _ _ _ hp hn hcolon htm
  refine ⟨?_, rfl, rfl, rfl⟩
  rw [new_regexp_eq _ hw]
  unfold StringRegion.newRegexp
  rw [hcap]
  show (parseU64 (natDigits a)).elim none (fun a' =>
      (parseU64 (natDigits b)).elim none (fun b' =>
        some (StringRegion.newInner p a' b'))) = some ⟨p, b, a, true⟩
  simp only [parseU64_natDigits a ha, parseU64_natDigits b hb, Option.elim_some]
  unfold StringRegion.newInner
  rw [if_pos hba]

theorem c6_witness :
    StringRegion.new (("x".data) ++ ':' :: (natDigits 5 ++ '-' :: natDigits 3)) =
      some ⟨"x".data, 3, 5, true⟩ :=
  (c6_amended ("x".data) 5 3 (by decide) (by decide) (by decide) (by decide)
    (by decide) (by decide)).1

/-- Claim C7: for every input matched by the optional-bounds grammar,
`OptionalRegion::new` and `new_with_prefix` return successfully with each
bound equal to the (attempted) `u64` parse of its digit group, and a group
that is empty or whose value does not fit in 64 bits is stored as `none`
rather than failing the parse. -/
theorem c7_degrades (s pre p d1 d2 : List Char)
    (h : capture false s = some (p, d1, d2)) :
    OptionalRegion.new s = some ⟨p, parseU64 d1, parseU64 d2⟩ ∧
      OptionalRegion.newWithPre s pre =
        some ⟨chrNorm p pre, parseU64 d1, parseU64 d2⟩ ∧
      ((d1 = [] ∨ 2 ^ 64 ≤ digitsToNat d1) → parseU64 d1 = none) ∧
      ((d2 = [] ∨ 2 ^ 64 ≤ digitsToNat d2) → parseU64 d2 = none) := by
  obtain ⟨hd1, hd2⟩ := capture_digits false s p d1 d2 h
  refine ⟨?_, ?_, parseU64_digits_none d1 hd1, parseU64_digits_none d2 hd2⟩
  · unfold OptionalRegion.new
    rw [h]
    rfl
  · unfold OptionalRegion.newWithPre
    rw [h]
    rfl

theorem c7_witness :
    OptionalRegion.new ("c:-5".data) = some ⟨"c".data, none, some 5⟩ := by
  have h :=
    (c7_degrades ("c:-5".data) ("chr".data) ("c".data) [] ("5".data) (by decide)).1
  rw [h]
  decide

/-- Claim C8: `Region::include` is true exactly when the other region has
the same reference id, starts no earlier, and ends strictly earlier; in
particular it is not reflexive: `[0,10)` includes `[2,9)` but not an
identical copy of itself. -/
theorem c8_include_strict :
    (∀ r other : Region, Region.include_ r other = true ↔
        (r.refId = other.refId ∧ r.start ≤ other.start ∧ other.end_ < r.end_)) ∧
      Region.new 0 0 10 = some ⟨0, 0, 10⟩ ∧ Region.new 0 2 9 = some ⟨0, 2, 9⟩ ∧
      Region.include_ ⟨0, 0, 10⟩ ⟨0, 2, 9⟩ = true ∧
      Region.include_ ⟨0, 0, 10⟩ ⟨0, 0, 10⟩ = false := by
  refine ⟨?_, by decide, by decide, by decide, by decide⟩
  intro r other
  unfold Region.include_
  simp [Bool.and_eq_true, decide_eq_true_eq, and_assoc]

theorem c8_witness : Region.include_ ⟨1, 2, 10⟩ ⟨1, 3, 9⟩ = true :=
  (c8_include_strict.1 ⟨1, 2, 10⟩ ⟨1, 3, 9⟩).mpr ⟨rfl, by decide, by decide⟩

/-- Claim C9: `StringRegion::new` dispatches on whitespace tokenization —
with at least 3 tokens, token 0 is the path and tokens 1 and 2 must both
parse as `u64` (error otherwise); with fewer than 3 tokens it falls back
to the colon/dash grammar where both bounds are mandatory; `new("")` and
`new(":10-20")` both fail. -/
theorem c9_dual_grammar :
    (∀ s t0 t1 t2 : List Char, ∀ rest : List (List Char),
        splitWs s = t0 :: t1 :: t2 :: rest →
        (∀ a b : Nat, parseU64 t1 = some a → parseU64 t2 = some b →
            StringRegion.new s = some (StringRegion.newInner t0 a b)) ∧
          ((parseU64 t1 = none ∨ parseU64 t2 = none) →
            StringRegion.new s = none)) ∧
      (∀ s : List Char, (splitWs s).length < 3 →
          StringRegion.new s = StringRegion.newRegexp s) ∧
      (∀ s p d1 d2 : List Char, (splitWs s).length < 3 →
          capture true s = some (p, d1, d2) →
          (parseU64 d1 = none ∨ parseU64 d2 = none) →
          StringRegion.new s = none) ∧
      StringRegion.new ("".data) = none ∧
      StringRegion.new (":10-20".data) = none := by
  refine ⟨?_, fun s h => new_regexp_eq s h, ?_, by decide, by decide⟩
  · intro s t0 t1 t2 rest hsplit
    constructor
    · intro a b ha hb
      rw [new_tokens_eq s t0 t1 t2 rest hsplit]
      simp only [ha, hb, Option.elim_some]
    · intro hor
      rw [new_tokens_eq s t0 t1 t2 rest hsplit]
      rcases hor with hn | hn
      · rw [hn]; rfl
      · simp only [hn, Option.elim_none]
        cases parseU64 t1 <;> rfl
  · intro s p d1 d2 hlen hcap hor
    rw [new_regexp_eq s hlen]
    unfold StringRegion.newRegexp
    rw [hcap]
    show (parseU64 d1).elim none (fun a =>
        (parseU64 d2).elim none (fun b =>
          some (StringRegion.newInner p a b))) = none
    rcases hor with hn | hn
    · rw [hn]; rfl
    · simp only [hn, Option.elim_none]
      cases parseU64 d1 <;> rfl

theorem c9_witness :
    StringRegion.new ("a 1 2".data) = some (StringRegion.newInner ("a".data) 1 2) :=
  ((c9_dual_grammar.1 ("a 1 2".data) ("a".data) ("1".data) ("2".data) []
    (by decide)).1 1 2 (by decide) (by decide))

/-- Claim C10: whenever an `OptionalRegion` has no start bound, its
display/`uuid` is the path alone, even when an end bound is present, so
two values differing only in such an end display identically. -/
theorem c10_display_omits_end :
    (∀ r : OptionalRegion, r.start = none → OptionalRegion.uuid r = r.path) ∧
      (∀ (p : List Char) (e1 e2 : Option Nat),
          OptionalRegion.uuid ⟨p, none, e1⟩ = OptionalRegion.uuid ⟨p, none, e2⟩) := by
  constructor
  · intro r h
    unfold OptionalRegion.uuid
    rw [h]
  · intro p e1 e2
    rfl

theorem c10_witness :
    OptionalRegion.uuid ⟨"chr1".data, none, some 7⟩ = "chr1".data :=
  c10_display_omits_end.1 ⟨"chr1".data, none, some 7⟩ rfl
